import Mathlib

/-!
Verification of the cfkvfs client (src/lib.rs, src/database.rs, src/utils.rs).

The development shallowly embeds the chunking / hashing / indexing scheme, the
two cache variants and the retry loops of the source.  Modelling conventions:

* Byte strings are `List Nat` (each entry a `u8` value; no arithmetic is ever
  performed on bytes, so no truncation is needed).
* The `i64` content hash is represented by its 64-bit pattern as a `Nat`.
  The only operations the source performs on a hash are the comparison with
  `0`, equality of hashes, conversion to a decimal-string key suffix and the
  little-endian byte (de)serialisation; all of these are bit-pattern
  functions, so the representation is faithful.
* `get_hash` (Shake256 truncated to 8 bytes) is kept abstract as a parameter
  `h : List Nat -> Nat`; it is deterministic in the source (the shared hasher
  is reset after each use under a lock), so a pure function is the right
  model.  Where a proof needs that a real hash fits in 64 bits or does not
  collide, that appears as an explicit hypothesis.
* The buffer handling inside `get_hash` (src/utils.rs) is embedded separately
  (`get_hash_buf`, `get_hash_finish`) because one claim is specifically about
  its fallback path; the `try_into().expect(..)` is modelled as `Option` with
  `none` standing for the panic.
* HTTP is modelled by outcome functions: for a POST, `send : Nat -> Bool`
  gives the success of the n-th attempt; for a GET, `resp : Nat -> Option
  (List Nat)` gives the n-th attempt's body (`none` = transport error).  The
  body accumulation of `resp.copy_to(&mut buf)` across retries is modelled
  faithfully (the buffer is appended to, not reset, on each attempt).
* `rayon`'s `par_iter().map(..).collect()` over an indexed iterator is
  documented to preserve the order of the input; it is embedded as an ordered
  `List.map` / ordered fold threading the shared (mutex-protected) cache,
  which is the canonical serialisation of the parallel execution.
* The remote key is `{endpoint}/{prefix}/{name}:{suffix}`; endpoint and the
  namespace part are fixed per client, so a key is modelled as the pair of
  the blob name and the suffix.  The suffix is either the literal string
  "index" or the decimal representation of the i64 hash; decimal strings
  never equal "index" and the decimal map is injective, so an inductive
  suffix type is a faithful model of the string key space.
-/

namespace CfKvFs

/-- Error type of the source (`CfKvFsError` in src/lib.rs); the payloads are
irrelevant to the claims and dropped. `ReqwestError` is the transport error,
`IntParseConvertError` the `TryFromSliceError` wrapper used by index parsing,
`HashError` the integrity error. -/
inductive CfKvFsError where
  | ReqwestError
  | RusqliteError
  | RusqliteMigrationError
  | IntParseConvertError
  | HashError
deriving DecidableEq, Repr

/-- Suffix of a remote / cache key: the reserved string "index" or the decimal
string of the chunk's i64 hash (represented by its 64-bit pattern). -/
inductive Suffix where
  | index
  | chunk (hash : Nat)
deriving DecidableEq, Repr

/-- A remote object / cache key: blob name plus suffix (the constant endpoint
and namespace components of the URL are omitted). -/
structure RKey where
  name : String
  suffix : Suffix
deriving DecidableEq, Repr

/-- CHUNK_SIZE constant of src/lib.rs. -/
def CHUNK_SIZE : Nat := 1024 * 1024

/-- Key computed by `get_data` (src/lib.rs lines 241-249): suffix "index" when
the requested hash is the sentinel `0`, else the hash itself. -/
def keyOf (name : String) (hash : Nat) : RKey :=
  ⟨name, if hash = 0 then .index else .chunk hash⟩

/-- `data.chunks(n)` of Rust slices: contiguous spans of at most `n` bytes, in
order, the last one possibly short; an empty input yields no chunks.  (The
source only calls this with `n = CHUNK_SIZE` and `n = 8`.) -/
def chunksList (n : Nat) : List α → List (List α)
  | [] => []
  | a :: l => (a :: l.take (n - 1)) :: chunksList n (l.drop (n - 1))
termination_by l => l.length
decreasing_by simp [List.length_drop]; omega

/-- Little-endian bytes of an i64 bit pattern (`i64::to_le_bytes`). -/
def toLeBytes (x : Nat) : List Nat :=
  [x % 256, x / 256 % 256, x / 65536 % 256, x / 16777216 % 256,
   x / 4294967296 % 256, x / 1099511627776 % 256,
   x / 281474976710656 % 256, x / 72057594037927936 % 256]

/-- `i64::from_le_bytes` on an 8-byte group, as a bit pattern. -/
def fromLeBytes (l : List Nat) : Nat :=
  l.foldr (fun b acc => b + 256 * acc) 0

/-- Buffer produced inside `get_hash` (src/utils.rs lines 22-26): on a
successful XOF read the 8 squeezed bytes, on a read error the literal
`vec![0u8, 8]` of the source, i.e. the two-element vector `[0, 8]`. -/
def get_hash_buf (readOk : Bool) (xofOut : List Nat) : List Nat :=
  if readOk then xofOut else [0, 8]

/-- Tail of `get_hash` (src/utils.rs lines 16-31): the buffer is converted by
`try_into` into `[u8; 8]` and `expect`-unwrapped into an i64; `none` models
the panic raised when the buffer does not have exactly 8 bytes. -/
def get_hash_finish (readOk : Bool) (xofOut : List Nat) : Option Nat :=
  let buf := get_hash_buf readOk xofOut
  if buf.length = 8 then some (fromLeBytes buf) else none

/-! ### Cache layer (src/database.rs) -/

/-- First-match association lookup (models `LruCache` keyed access and the
`SELECT .. WHERE key = ?1` first-row query). -/
def assocGet [DecidableEq K] : List (K × List Nat) → K → Option (List Nat)
  | [], _ => none
  | p :: ps, k => if p.1 = k then some p.2 else assocGet ps k

/-- Remove all entries with the given key. -/
def eraseKey [DecidableEq K] (es : List (K × List Nat)) (k : K) : List (K × List Nat) :=
  es.filter (fun p => decide (p.1 ≠ k))

/-- State of the process-wide `Box<dyn KvCache>`: either the volatile
`LruKvCache` (string-keyed entries, most recent first, capacity 128) or the
`SqliteKvCache` (an LRU front cache plus the sqlite table, both keyed by the
re-hashed key; the table list is in insertion order). -/
inductive KvCacheSt where
  | lru (entries : List (RKey × List Nat))
  | sqlite (front : List (Nat × List Nat)) (table : List (Nat × List Nat))
deriving DecidableEq, Repr

/-- `KvCache::get`.  The LRU variants promote a hit to the front (recency
update of the `lru` crate); the sqlite variant re-hashes the string key with
`get_hash` (abstracted as `hs`), consults the front cache, then the table.
Neither variant can fail in the model (the sqlite queries of the source fail
only on backend malfunction). -/
def kvGet (hs : RKey → Nat) : KvCacheSt → RKey → Option (List Nat) × KvCacheSt
  | .lru es, k =>
    match assocGet es k with
    | some v => (some v, .lru ((k, v) :: eraseKey es k))
    | none => (none, .lru es)
  | .sqlite front table, k =>
    let kh := hs k
    match assocGet front kh with
    | some v => (some v, .sqlite ((kh, v) :: eraseKey front kh) table)
    | none => (assocGet table kh, .sqlite front table)

/-- `KvCache::put`.  `LruKvCache::put` (src/database.rs lines 29-32) stores
`value` unconditionally and returns it; `SqliteKvCache::put` (lines 85-104)
first re-checks existence via `get` and returns the already-stored value
without inserting, else inserts the row and fills the front cache.  The
capacity-128 eviction of `LruCache::new(128)` is the `take 128`. -/
def kvPut (hs : RKey → Nat) : KvCacheSt → RKey → List Nat → List Nat × KvCacheSt
  | .lru es, k, v => (v, .lru (((k, v) :: eraseKey es k).take 128))
  | .sqlite front table, k, v =>
    match kvGet hs (.sqlite front table) k with
    | (some v0, c1) => (v0, c1)
    | (none, _) =>
      let kh := hs k
      (v, .sqlite (((kh, v) :: eraseKey front kh).take 128) (table ++ [(kh, v)]))

/-! ### Write path (src/lib.rs `post_data`, `put_blob`) -/

/-- The transform application of `post_data` (src/lib.rs lines 198-202): the
caller-supplied reducer is applied exactly when one is present and the posted
object is not the index. -/
def applyReducer (reducer : Option (List Nat → List Nat)) (index : Bool)
    (data : List Nat) : List Nat :=
  match reducer with
  | some r => if index then data else r data
  | none => data

/-- The retry loop of `post_data` (src/lib.rs lines 204-226): attempt `i`, on
failure give up once the retry counter exceeds 3, else increment and loop.
Returns whether a send succeeded and the number of attempts made. -/
def postLoop (send : Nat → Bool) (i retry : Nat) : Bool × Nat :=
  if send i then (true, i + 1)
  else if retry > 3 then (false, i + 1)
  else postLoop send (i + 1) (retry + 1)
termination_by 4 - retry
decreasing_by omega

/-- Result of one `post_data` call: the returned i64 (the content hash, or the
`0` sentinel after retry exhaustion), the request it issued (key and posted
body) and the number of attempts made. -/
structure PostRes where
  hash : Nat
  req : RKey × List Nat
  attempts : Nat
deriving DecidableEq, Repr

/-- `CfKvFs::post_data` (src/lib.rs lines 196-228): transform unless posting
the index, hash the post-transform bytes, post the body under
`name:{hash or "index"}` with the bounded retry loop; return the hash, or `0`
after exhausting retries (the failure is swallowed and only logged). -/
def post_data (h : List Nat → Nat) (reducer : Option (List Nat → List Nat))
    (send : Nat → Bool) (name : String) (data : List Nat) (index : Bool) : PostRes :=
  let d := applyReducer reducer index data
  let hv := h d
  let key : RKey := ⟨name, if index then .index else .chunk hv⟩
  match postLoop send 0 0 with
  | (true, n) => ⟨hv, (key, d), n⟩
  | (false, n) => ⟨0, (key, d), n⟩

/-- Observable outcome of `put_blob`: every request posted (chunk posts in
chunk order, then the index post) and the index body. -/
structure PutBlobRes where
  posts : List (RKey × List Nat)
  indexBody : List Nat
deriving DecidableEq, Repr

/-- `CfKvFs::put_blob` (src/lib.rs lines 230-238): split into CHUNK_SIZE
chunks, post every chunk (the rayon `par_iter().map(..).flatten().collect()`
preserves the input order, embedded as the ordered map), concatenate the
little-endian bytes of the returned hashes into the index body, and post the
index.  `sends i` gives the attempt outcomes for chunk `i`, `isend` those of
the index post. -/
def put_blob (h : List Nat → Nat) (reducer : Option (List Nat → List Nat))
    (sends : Nat → Nat → Bool) (isend : Nat → Bool) (name : String)
    (data : List Nat) : PutBlobRes :=
  let chunked := chunksList CHUNK_SIZE data
  let results := chunked.enum.map (fun p => post_data h reducer (sends p.1) name p.2 false)
  let hash_list := (results.map (fun r => toLeBytes r.hash)).flatten
  let ipost := post_data h reducer isend name hash_list true
  ⟨results.map (fun r => r.req) ++ [ipost.req], hash_list⟩

/-! ### Read path (src/lib.rs `get_data`, `get_blob`) -/

/-- The retry loop of `get_data` (src/lib.rs lines 253-274): on each attempt
the response body is appended to `buf` (`resp.copy_to(&mut buf)` appends and
`buf` lives outside the loop), then the integrity check `hash == 0 ||
get_hash(&buf) == hash` runs; a transport error or failed check retries until
the counter exceeds 3, at which point the last error is returned.  Returns
the final buffer or error, and the number of attempts. -/
def getLoop (h : List Nat → Nat) (resp : Nat → Option (List Nat)) (hash : Nat)
    (buf : List Nat) (i retry : Nat) : Except CfKvFsError (List Nat) × Nat :=
  match resp i with
  | none =>
    if retry > 3 then (.error .ReqwestError, i + 1)
    else getLoop h resp hash buf (i + 1) (retry + 1)
  | some body =>
    let buf' := buf ++ body
    if hash = 0 ∨ h buf' = hash then (.ok buf', i + 1)
    else if retry > 3 then (.error .HashError, i + 1)
    else getLoop h resp hash buf' (i + 1) (retry + 1)
termination_by 4 - retry
decreasing_by
  all_goals omega

/-- Result of one `get_data` call: the returned value or error, the cache
state afterwards, whether the remote was contacted (false = served from the
cache), and the number of remote attempts. -/
structure GetDataRes where
  result : Except CfKvFsError (List Nat)
  cache : KvCacheSt
  fromRemote : Bool
  attempts : Nat
deriving Repr

/-- `CfKvFs::get_data` (src/lib.rs lines 240-281): build the key from the
hash (`0` selects the "index" suffix), return a cache hit as-is, otherwise
run the retry loop against the remote, `put` the buffer into the cache and
use the value the cache returns, applying the reducer to it exactly when a
reducer is present and the hash is not the index sentinel. -/
def get_data (h : List Nat → Nat) (hs : RKey → Nat)
    (reducer : Option (List Nat → List Nat)) (resp : Nat → Option (List Nat))
    (cache : KvCacheSt) (name : String) (hash : Nat) : GetDataRes :=
  let key := keyOf name hash
  match kvGet hs cache key with
  | (some value, c1) => ⟨.ok value, c1, false, 0⟩
  | (none, c1) =>
    match getLoop h resp hash [] 0 0 with
    | (.error e, n) => ⟨.error e, c1, true, n⟩
    | (.ok buf, n) =>
      let pr := kvPut hs c1 key buf
      let out := match reducer with
        | some r => if hash = 0 then pr.1 else r pr.1
        | none => pr.1
      ⟨.ok out, pr.2, true, n⟩

/-- `hash.try_into() : Result<[u8; 8], _>` on one group produced by
`chunks(8)`: succeeds exactly when the group has 8 bytes. -/
def tryInto8 (l : List Nat) : Except CfKvFsError (List Nat) :=
  if l.length = 8 then .ok l else .error .IntParseConvertError

/-- `collect::<Result<Vec<_>, _>>()` over the `try_into` of each 8-byte
group: first error wins. -/
def collectExcept : List (List Nat) → Except CfKvFsError (List (List Nat))
  | [] => .ok []
  | c :: cs =>
    match tryInto8 c with
    | .error e => .error e
    | .ok x => (collectExcept cs).map (fun xs => x :: xs)

/-- Accumulated result of the chunk-fetch phase of `get_blob`: the ordered
chunk bytes (or the first error), the final cache state and the `get_data`
invocations made (key, and whether the remote was contacted). -/
structure ChunksRes where
  result : Except CfKvFsError (List (List Nat))
  cache : KvCacheSt
  calls : List (RKey × Bool)
deriving Repr

/-- The chunk-fetch fan-out of `get_blob` (src/lib.rs lines 289-292): one
`get_data` per parsed hash, results collected in index order (rayon preserves
the order of an indexed collect), first error aborting.  The shared cache is
threaded in order, the canonical serialisation of the lock-protected
parallel execution. -/
def getChunksLoop (h : List Nat → Nat) (hs : RKey → Nat)
    (reducer : Option (List Nat → List Nat)) (remote : RKey → Nat → Option (List Nat))
    (name : String) : KvCacheSt → List Nat → ChunksRes
  | c, [] => ⟨.ok [], c, []⟩
  | c, hv :: rest =>
    let r := get_data h hs reducer (remote (keyOf name hv)) c name hv
    match r.result with
    | .error e => ⟨.error e, r.cache, [(keyOf name hv, r.fromRemote)]⟩
    | .ok b =>
      let tailRes := getChunksLoop h hs reducer remote name r.cache rest
      ⟨tailRes.result.map (fun bs => b :: bs), tailRes.cache,
        (keyOf name hv, r.fromRemote) :: tailRes.calls⟩

/-- Observable outcome of `get_blob`: the reassembled bytes or the error, the
final cache state, and every `get_data` invocation made. -/
structure GetBlobRes where
  result : Except CfKvFsError (List Nat)
  cache : KvCacheSt
  calls : List (RKey × Bool)
deriving Repr

/-- `CfKvFs::get_blob` (src/lib.rs lines 283-297): fetch the index with the
`0` sentinel, split it into 8-byte groups (`try_into` failing on a short
group), fetch every chunk by its little-endian-decoded hash and concatenate
in order.  `remote k` gives the per-attempt response stream for key `k`. -/
def get_blob (h : List Nat → Nat) (hs : RKey → Nat)
    (reducer : Option (List Nat → List Nat)) (remote : RKey → Nat → Option (List Nat))
    (cache : KvCacheSt) (name : String) : GetBlobRes :=
  let r0 := get_data h hs reducer (remote (keyOf name 0)) cache name 0
  match r0.result with
  | .error e => ⟨.error e, r0.cache, [(keyOf name 0, r0.fromRemote)]⟩
  | .ok data =>
    match collectExcept (chunksList 8 data) with
    | .error e => ⟨.error e, r0.cache, [(keyOf name 0, r0.fromRemote)]⟩
    | .ok groups =>
      let hashes := groups.map fromLeBytes
      let cr := getChunksLoop h hs reducer remote name r0.cache hashes
      ⟨cr.result.map List.flatten, cr.cache, (keyOf name 0, r0.fromRemote) :: cr.calls⟩

/-- A remote store built from a list of posted requests: later posts to the
same key overwrite ("the remote faithfully retains every posted object" when
the keys are distinct). -/
def storeOf (posts : List (RKey × List Nat)) (k : RKey) : Option (List Nat) :=
  posts.foldl (fun a p => if p.1 = k then some p.2 else a) none

/-! ### Basic lemmas -/

theorem toLeBytes_length (x : Nat) : (toLeBytes x).length = 8 := rfl

theorem fromLeBytes_toLeBytes (x : Nat) (hx : x < 2 ^ 64) :
    fromLeBytes (toLeBytes x) = x := by
  simp only [toLeBytes, fromLeBytes, List.foldr]
  have hx' : x < 18446744073709551616 := by
    have : (2 : Nat) ^ 64 = 18446744073709551616 := by norm_num
    omega
  omega

theorem chunksList_flatten (n : Nat) : ∀ l : List α, (chunksList n l).flatten = l
  | [] => by simp [chunksList]
  | a :: l => by
    rw [chunksList]
    have ih := chunksList_flatten n (l.drop (n - 1))
    simp [ih, List.take_append_drop]
termination_by l => l.length
decreasing_by simp [List.length_drop]; omega

theorem chunksList_uniform (n : Nat) (hn : 0 < n) :
    ∀ cs : List (List α), (∀ c ∈ cs, c.length = n) → chunksList n cs.flatten = cs := by
  intro cs
  induction cs with
  | nil => intro _; simp [chunksList]
  | cons c cs ih =>
    intro hall
    have hc : c.length = n := hall c (by simp)
    cases c with
    | nil => simp at hc; omega
    | cons a c1 =>
      have hc1 : c1.length = n - 1 := by simp at hc; omega
      have : ((a :: c1) :: cs).flatten = a :: (c1 ++ cs.flatten) := by simp
      rw [this, chunksList]
      have ht : (c1 ++ cs.flatten).take (n - 1) = c1 := by
        rw [← hc1]; exact List.take_left c1 cs.flatten
      have hd : (c1 ++ cs.flatten).drop (n - 1) = cs.flatten := by
        rw [← hc1]; exact List.drop_left c1 cs.flatten
      rw [ht, hd, ih (fun x hx => hall x (by simp [hx]))]

theorem chunksList_length_flatten_mod (n : Nat)
    (cs : List (List α)) (hall : ∀ c ∈ cs, c.length = n) :
    cs.flatten.length % n = 0 := by
  induction cs with
  | nil => simp
  | cons c cs ih =>
    have hc : c.length = n := hall c (by simp)
    have := ih (fun x hx => hall x (by simp [hx]))
    simp only [List.flatten_cons, List.length_append, hc]
    rw [Nat.add_mod_left]
    exact this

theorem collectExcept_ok (gs : List (List Nat)) (hall : ∀ c ∈ gs, c.length = 8) :
    collectExcept gs = .ok gs := by
  induction gs with
  | nil => rfl
  | cons c cs ih =>
    have hc : c.length = 8 := hall c (by simp)
    have := ih (fun x hx => hall x (by simp [hx]))
    simp [collectExcept, tryInto8, hc, this, Except.map]

theorem enumFrom_map_snd_f (f : α → β) :
    ∀ (i : Nat) (l : List α), (List.enumFrom i l).map (fun p => f p.2) = l.map f
  | _, [] => rfl
  | i, a :: l => by
    simp only [List.enumFrom, List.map_cons, List.map]
    rw [enumFrom_map_snd_f f (i + 1) l]

theorem enum_map_snd_f (f : α → β) (l : List α) :
    l.enum.map (fun p => f p.2) = l.map f :=
  enumFrom_map_snd_f f 0 l

/-! ### Lemmas about the modelled remote store -/

theorem storeOf_aux_preserve (k : RKey) (v : List Nat) :
    ∀ posts : List (RKey × List Nat), (∀ p ∈ posts, p.1 = k → p.2 = v) →
      posts.foldl (fun a p => if p.1 = k then some p.2 else a) (some v) = some v := by
  intro posts
  induction posts with
  | nil => intro _; rfl
  | cons p ps ih =>
    intro hall
    simp only [List.foldl_cons]
    by_cases hp : p.1 = k
    · rw [if_pos hp, hall p (by simp) hp]
      exact ih fun q hq => hall q (by simp [hq])
    · rw [if_neg hp]
      exact ih fun q hq => hall q (by simp [hq])

theorem storeOf_of_mem_of_all (k : RKey) (v : List Nat) :
    ∀ posts : List (RKey × List Nat), (k, v) ∈ posts →
      (∀ p ∈ posts, p.1 = k → p.2 = v) → storeOf posts k = some v := by
  intro posts
  induction posts with
  | nil => intro hmem; simp at hmem
  | cons p ps ih =>
    intro hmem hall
    simp only [storeOf, List.foldl_cons]
    by_cases hp : p.1 = k
    · rw [if_pos hp, hall p (by simp) hp]
      exact storeOf_aux_preserve k v ps fun q hq => hall q (by simp [hq])
    · rw [if_neg hp]
      have hmem' : (k, v) ∈ ps := by
        rcases List.mem_cons.mp hmem with he | hm
        · exact absurd (congrArg Prod.fst he.symm) hp
        · exact hm
      exact ih hmem' fun q hq => hall q (by simp [hq])

theorem storeOf_append_single_ne (posts : List (RKey × List Nat)) (q : RKey × List Nat)
    (k : RKey) (hne : q.1 ≠ k) : storeOf (posts ++ [q]) k = storeOf posts k := by
  simp only [storeOf, List.foldl_append, List.foldl_cons, List.foldl_nil, if_neg hne]

theorem storeOf_append_single_eq (posts : List (RKey × List Nat)) (k : RKey)
    (v : List Nat) : storeOf (posts ++ [(k, v)]) k = some v := by
  simp [storeOf, List.foldl_append]

/-! ### Lemmas about the retry loops -/

theorem postLoop_success (send : Nat → Bool) (i retry : Nat) (hi : send i = true) :
    postLoop send i retry = (true, i + 1) := by
  rw [postLoop, if_pos hi]

theorem postLoop_allFail (i retry : Nat) (hr : retry ≤ 4) :
    postLoop (fun _ => false) i retry = (false, i + (5 - retry)) := by
  rw [postLoop]
  by_cases h4 : retry > 3
  · have : retry = 4 := by omega
    simp [this]
  · have ih := postLoop_allFail (i + 1) (retry + 1) (by omega)
    simp only [Bool.false_eq_true, if_false, if_neg h4, ih]
    have : i + 1 + (5 - (retry + 1)) = i + (5 - retry) := by omega
    rw [this]
termination_by 4 - retry
decreasing_by omega

theorem postLoop_attempts (send : Nat → Bool) (i retry : Nat) (hr : retry ≤ 4) :
    (postLoop send i retry).2 ≤ i + (5 - retry) := by
  rw [postLoop]
  by_cases hi : send i = true
  · simp only [if_pos hi]; omega
  · simp only [if_neg hi]
    by_cases h4 : retry > 3
    · simp only [if_pos h4]; omega
    · have ih := postLoop_attempts send (i + 1) (retry + 1) (by omega)
      simp only [if_neg h4]
      omega
termination_by 4 - retry
decreasing_by omega

theorem getLoop_first_ok (h : List Nat → Nat) (resp : Nat → Option (List Nat))
    (hash : Nat) (b : List Nat) (h0 : resp 0 = some b)
    (hver : hash = 0 ∨ h b = hash) : getLoop h resp hash [] 0 0 = (.ok b, 1) := by
  rw [getLoop]
  simp only [h0, List.nil_append]
  rw [if_pos hver]

theorem getLoop_allNone (h : List Nat → Nat) (hash : Nat) (buf : List Nat)
    (i retry : Nat) (hr : retry ≤ 4) :
    getLoop h (fun _ => none) hash buf i retry = (.error .ReqwestError, i + (5 - retry)) := by
  rw [getLoop]
  by_cases h4 : retry > 3
  · have : retry = 4 := by omega
    simp [this]
  · have ih := getLoop_allNone h hash buf (i + 1) (retry + 1) (by omega)
    simp only [if_neg h4, ih]
    have : i + 1 + (5 - (retry + 1)) = i + (5 - retry) := by omega
    rw [this]
termination_by 4 - retry
decreasing_by omega

theorem getLoop_attempts (h : List Nat → Nat) (resp : Nat → Option (List Nat))
    (hash : Nat) (buf : List Nat) (i retry : Nat) (hr : retry ≤ 4) :
    (getLoop h resp hash buf i retry).2 ≤ i + (5 - retry) := by
  rw [getLoop]
  match hresp : resp i with
  | none =>
    by_cases h4 : retry > 3
    · simp only [if_pos h4]; omega
    · have ih := getLoop_attempts h resp hash buf (i + 1) (retry + 1) (by omega)
      simp only [if_neg h4]
      omega
  | some body =>
    by_cases hv : hash = 0 ∨ h (buf ++ body) = hash
    · simp only [if_pos hv]; omega
    · by_cases h4 : retry > 3
      · simp only [if_neg hv, if_pos h4]; omega
      · have ih := getLoop_attempts h resp hash (buf ++ body) (i + 1) (retry + 1) (by omega)
        simp only [if_neg hv, if_neg h4]
        omega
termination_by 4 - retry
decreasing_by all_goals omega

theorem flatten_replicate_succ (b : List Nat) (k : Nat) :
    (List.replicate (k + 1) b).flatten = (List.replicate k b).flatten ++ b := by
  rw [List.replicate_succ', List.flatten_append]
  simp

theorem getLoop_constMismatch (h : List Nat → Nat) (b : List Nat) (hash : Nat)
    (hz : hash ≠ 0)
    (hbad : ∀ k, 1 ≤ k → k ≤ 5 → h ((List.replicate k b).flatten) ≠ hash)
    (j : Nat) (h4 : j ≤ 4) :
    getLoop h (fun _ => some b) hash ((List.replicate j b).flatten) j j =
      (.error .HashError, 5) := by
  rw [getLoop]
  simp only
  rw [← flatten_replicate_succ]
  rw [if_neg (by
    intro hc
    rcases hc with hc | hc
    · exact hz hc
    · exact hbad (j + 1) (by omega) (by omega) hc)]
  by_cases hj4 : j > 3
  · have hj : j = 4 := by omega
    rw [if_pos hj4, hj]
  · rw [if_neg hj4]
    exact getLoop_constMismatch h b hash hz hbad (j + 1) (by omega)
termination_by 4 - j
decreasing_by omega

/-! ### Cache consistency and the read-path step lemmas -/

theorem assocGet_mem [DecidableEq K] (k : K) (v : List Nat) :
    ∀ es : List (K × List Nat), assocGet es k = some v → (k, v) ∈ es := by
  intro es
  induction es with
  | nil => intro hc; simp [assocGet] at hc
  | cons p ps ih =>
    intro hc
    simp only [assocGet] at hc
    by_cases hp : p.1 = k
    · rw [if_pos hp] at hc
      have hpv : p = (k, v) := by
        cases p
        simp_all
      rw [hpv]
      exact List.mem_cons_self _ _
    · rw [if_neg hp] at hc
      exact List.mem_cons_of_mem p (ih hc)

theorem eraseKey_subset [DecidableEq K] (es : List (K × List Nat)) (k : K) :
    ∀ p ∈ eraseKey es k, p ∈ es := by
  intro p hp
  exact List.mem_of_mem_filter hp

/-- Consistency of a volatile-cache state with a remote store: every cached
entry holds exactly the store's value for its key. -/
def lruConsistent (store : RKey → Option (List Nat)) (es : List (RKey × List Nat)) : Prop :=
  ∀ p ∈ es, store p.1 = some p.2

theorem lruConsistent_promote (store : RKey → Option (List Nat))
    (es : List (RKey × List Nat)) (k : RKey) (v : List Nat)
    (hc : lruConsistent store es) (hv : store k = some v) :
    lruConsistent store ((k, v) :: eraseKey es k) := by
  intro p hp
  rcases List.mem_cons.mp hp with he | hm
  · rw [he]; exact hv
  · exact hc p (eraseKey_subset es k p hm)

theorem lruConsistent_put (store : RKey → Option (List Nat))
    (es : List (RKey × List Nat)) (k : RKey) (v : List Nat)
    (hc : lruConsistent store es) (hv : store k = some v) :
    lruConsistent store (((k, v) :: eraseKey es k).take 128) := by
  intro p hp
  exact lruConsistent_promote store es k v hc hv p (List.take_subset 128 _ hp)

/-- One `get_data` call on a consistent volatile cache, against a remote that
serves the store's value for the requested key on every attempt: it returns
exactly the store's value (whether it hits the cache or fetches), and the
cache stays consistent. -/
theorem get_data_step (h : List Nat → Nat) (hs : RKey → Nat)
    (store : RKey → Option (List Nat)) (name : String) (hv : Nat)
    (es : List (RKey × List Nat)) (v : List Nat)
    (hinv : lruConsistent store es)
    (hstore : store (keyOf name hv) = some v)
    (hver : hv = 0 ∨ h v = hv) :
    (get_data h hs none (fun _ => store (keyOf name hv)) (.lru es) name hv).result = .ok v ∧
    ∃ es', (get_data h hs none (fun _ => store (keyOf name hv)) (.lru es) name hv).cache =
        .lru es' ∧ lruConsistent store es' := by
  unfold get_data
  simp only [kvGet]
  cases hget : assocGet es (keyOf name hv) with
  | some w =>
    have hw : store (keyOf name hv) = some w :=
      hinv _ (assocGet_mem (keyOf name hv) w es hget)
    have hwv : w = v := by
      have h2 : some v = some w := hstore.symm.trans hw
      exact (Option.some.inj h2).symm
    subst hwv
    exact ⟨rfl, _, rfl, lruConsistent_promote store es _ w hinv hw⟩
  | none =>
    rw [getLoop_first_ok h _ hv v hstore hver]
    exact ⟨by simp [kvPut], ((keyOf name hv, v) :: eraseKey es (keyOf name hv)).take 128,
      by simp [kvPut], lruConsistent_put store es _ v hinv hstore⟩

/-- The chunk-fetch loop on a list of chunks addressed by their hashes: when
the store holds every chunk under its hash key, the hashes are nonzero and
verify, the loop returns exactly the chunk list, in order. -/
theorem getChunksLoop_ok (h : List Nat → Nat) (hs : RKey → Nat)
    (store : RKey → Option (List Nat)) (name : String) :
    ∀ (cs : List (List Nat)) (es : List (RKey × List Nat)),
      lruConsistent store es →
      (∀ c ∈ cs, store (keyOf name (h c)) = some c ∧ h c ≠ 0) →
      (getChunksLoop h hs none (fun k _ => store k) name (.lru es) (cs.map h)).result =
        .ok cs := by
  intro cs
  induction cs with
  | nil => intro es _ _; rfl
  | cons c cs ih =>
    intro es hinv hall
    have hc := hall c (by simp)
    obtain ⟨hres, es', hcache, hinv'⟩ :=
      get_data_step h hs store name (h c) es c hinv hc.1 (Or.inr rfl)
    simp only [List.map_cons, getChunksLoop]
    rw [hres]
    simp only
    rw [hcache]
    rw [ih es' hinv' (fun x hx => hall x (by simp [hx]))]
    rfl

/-! ### The write-path trace under a fully available remote -/

theorem post_data_first_ok (h : List Nat → Nat) (reducer : Option (List Nat → List Nat))
    (send : Nat → Bool) (name : String) (data : List Nat) (index : Bool)
    (h0 : send 0 = true) :
    post_data h reducer send name data index =
      ⟨h (applyReducer reducer index data),
       (⟨name, if index then .index else .chunk (h (applyReducer reducer index data))⟩,
        applyReducer reducer index data), 1⟩ := by
  unfold post_data
  rw [postLoop_success send 0 0 h0]

theorem put_blob_allOk (h : List Nat → Nat) (name : String) (B : List Nat) :
    (put_blob h none (fun _ _ => true) (fun _ => true) name B).posts =
      (chunksList CHUNK_SIZE B).map (fun c => ((⟨name, .chunk (h c)⟩ : RKey), c)) ++
        [((⟨name, .index⟩ : RKey),
          ((chunksList CHUNK_SIZE B).map (fun c => toLeBytes (h c))).flatten)] ∧
    (put_blob h none (fun _ _ => true) (fun _ => true) name B).indexBody =
      ((chunksList CHUNK_SIZE B).map (fun c => toLeBytes (h c))).flatten := by
  unfold put_blob
  simp only
  have hpost : ∀ p : Nat × List Nat,
      post_data h none (fun _ => true) name p.2 false =
        ⟨h p.2, (⟨name, .chunk (h p.2)⟩, p.2), 1⟩ := by
    intro p
    rw [post_data_first_ok h none _ name p.2 false rfl]
    rfl
  simp only [hpost]
  rw [enum_map_snd_f (fun c => (⟨h c, (⟨name, .chunk (h c)⟩, c), 1⟩ : PostRes))
    (chunksList CHUNK_SIZE B)]
  rw [post_data_first_ok h none _ name _ true rfl]
  simp only [List.map_map, Function.comp]
  exact ⟨rfl, rfl⟩

/-! ### The read-path happy path -/

theorem get_blob_ok (h : List Nat → Nat) (hs : RKey → Nat)
    (store : RKey → Option (List Nat)) (name : String) (cs : List (List Nat))
    (es : List (RKey × List Nat))
    (hinv : lruConsistent store es)
    (hidx : store (keyOf name 0) = some ((cs.map (fun c => toLeBytes (h c))).flatten))
    (hr8 : ∀ c ∈ cs, fromLeBytes (toLeBytes (h c)) = h c)
    (hall : ∀ c ∈ cs, store (keyOf name (h c)) = some c ∧ h c ≠ 0) :
    (get_blob h hs none (fun k _ => store k) (.lru es) name).result = .ok cs.flatten := by
  unfold get_blob
  simp only
  obtain ⟨hres, es1, hcache, hinv1⟩ :=
    get_data_step h hs store name 0 es _ hinv hidx (Or.inl rfl)
  rw [hres, hcache]
  dsimp only
  have hgroups : chunksList 8 ((cs.map (fun c => toLeBytes (h c))).flatten) =
      cs.map (fun c => toLeBytes (h c)) := by
    apply chunksList_uniform 8 (by norm_num)
    intro g hg
    obtain ⟨c, _, rfl⟩ := List.mem_map.mp hg
    exact toLeBytes_length (h c)
  rw [hgroups]
  rw [collectExcept_ok _ (by
    intro g hg
    obtain ⟨c, _, rfl⟩ := List.mem_map.mp hg
    exact toLeBytes_length (h c))]
  simp only [List.map_map, Function.comp_def]
  have hmaph : cs.map (fun c => fromLeBytes (toLeBytes (h c))) = cs.map h :=
    List.map_congr_left hr8
  rw [hmaph]
  rw [getChunksLoop_ok h hs store name cs es1 hinv1 hall]
  rfl

/-! ### Claim theorems -/

/-- C1: for every blob `B`, after `put_blob(name, B)` with no transform and
with the remote store faithfully retaining every posted object (modelled by
`storeOf` over the posted requests; retention of every object needs the
posted keys to be separating, i.e. equal chunk hashes only for equal chunk
content, and no chunk hashing to the reserved sentinel `0` — both implicit in
the claim's premise), `get_blob(name)` returns exactly `B`.  The four size
classes (empty, short, exact multiple, short tail) are all instances of the
arbitrary `B`. -/
theorem c1_put_get_round_trip (h : List Nat → Nat) (hs : RKey → Nat) (name : String)
    (B : List Nat)
    (hrange : ∀ b, h b < 2 ^ 64)
    (hnz : ∀ c ∈ chunksList CHUNK_SIZE B, h c ≠ 0)
    (hinj : ∀ c ∈ chunksList CHUNK_SIZE B, ∀ c' ∈ chunksList CHUNK_SIZE B,
      h c = h c' → c = c') :
    (get_blob h hs none
        (fun k _ => storeOf (put_blob h none (fun _ _ => true) (fun _ => true) name B).posts k)
        (.lru []) name).result = .ok B := by
  obtain ⟨hposts, _⟩ := put_blob_allOk h name B
  simp only [hposts]
  have hkey0 : keyOf name 0 = ⟨name, .index⟩ := by simp [keyOf]
  have hidx : storeOf
      ((chunksList CHUNK_SIZE B).map (fun c => ((⟨name, .chunk (h c)⟩ : RKey), c)) ++
        [((⟨name, .index⟩ : RKey),
          ((chunksList CHUNK_SIZE B).map (fun c => toLeBytes (h c))).flatten)])
      (keyOf name 0) =
      some (((chunksList CHUNK_SIZE B).map (fun c => toLeBytes (h c))).flatten) := by
    rw [hkey0]
    exact storeOf_append_single_eq _ _ _
  have hall : ∀ c ∈ chunksList CHUNK_SIZE B,
      storeOf
        ((chunksList CHUNK_SIZE B).map (fun c => ((⟨name, .chunk (h c)⟩ : RKey), c)) ++
          [((⟨name, .index⟩ : RKey),
            ((chunksList CHUNK_SIZE B).map (fun c => toLeBytes (h c))).flatten)])
        (keyOf name (h c)) = some c ∧ h c ≠ 0 := by
    intro c hc
    have hz := hnz c hc
    have hkey : keyOf name (h c) = ⟨name, .chunk (h c)⟩ := by simp [keyOf, hz]
    refine ⟨?_, hz⟩
    rw [hkey]
    rw [storeOf_append_single_ne _ _ _ (by simp)]
    apply storeOf_of_mem_of_all
    · exact List.mem_map.mpr ⟨c, hc, rfl⟩
    · intro p hp hpk
      obtain ⟨c', hc', rfl⟩ := List.mem_map.mp hp
      simp only [RKey.mk.injEq, Suffix.chunk.injEq] at hpk
      exact hinj c' hc' c hc hpk.2
  have hmain := get_blob_ok h hs _ name (chunksList CHUNK_SIZE B) []
    (by intro p hp; simp at hp)
    hidx
    (fun c _ => fromLeBytes_toLeBytes (h c) (hrange c))
    hall
  rw [chunksList_flatten CHUNK_SIZE B] at hmain
  exact hmain

/-- `post_data` against an always-failing remote: returns the `0` sentinel
after exactly 5 attempts. -/
theorem post_data_allFail (h : List Nat → Nat) (reducer : Option (List Nat → List Nat))
    (name : String) (data : List Nat) (index : Bool) :
    post_data h reducer (fun _ => false) name data index =
      ⟨0, (⟨name, if index then .index else .chunk (h (applyReducer reducer index data))⟩,
        applyReducer reducer index data), 5⟩ := by
  unfold post_data
  rw [postLoop_allFail 0 0 (by norm_num)]

/-- C2 counterexample: against an always-failing remote both `post_data` and
`get_data` make 5 total attempts, not at most 4 as claimed. -/
theorem c2_retry_budget_counterexample :
    (post_data (fun _ => 1) none (fun _ => false) "n" [] false).attempts = 5 ∧
    (get_data (fun _ => 1) (fun _ => 0) none (fun _ => none) (.lru []) "n" 1).attempts = 5 ∧
    ¬ (5 ≤ 4) := by
  refine ⟨?_, ?_, by norm_num⟩
  · rw [post_data_allFail]
  · unfold get_data
    simp only [kvGet, assocGet]
    rw [getLoop_allNone (fun _ => 1) 1 [] 0 0 (by norm_num)]

/-- C2 amended: the retry budget is 5 total attempts, not 4 (the counter
starts at 0 and gives up only once it exceeds 3, after the fifth failure).
With that bound corrected the rest of the claim holds: both paths are
bounded, `put_blob` against an always-failing remote still completes and
records an 8-byte zero placeholder for every chunk in the index, and
`get_blob` against an always-failing remote surfaces the transport error. -/
theorem c2_retry_amended (h : List Nat → Nat) (hs : RKey → Nat)
    (reducer : Option (List Nat → List Nat)) (send : Nat → Bool) (name : String)
    (B : List Nat) (data : List Nat) (index : Bool)
    (resp : Nat → Option (List Nat)) (cache : KvCacheSt) (hash : Nat) :
    (post_data h reducer send name data index).attempts ≤ 5 ∧
    (get_data h hs reducer resp cache name hash).attempts ≤ 5 ∧
    (put_blob h reducer (fun _ _ => false) (fun _ => false) name B).indexBody =
      ((chunksList CHUNK_SIZE B).map (fun _ => toLeBytes 0)).flatten ∧
    (get_blob h hs reducer (fun _ _ => none) (.lru []) name).result =
      .error .ReqwestError := by
  refine ⟨?_, ?_, ?_, ?_⟩
  · have hpa : (post_data h reducer send name data index).attempts = (postLoop send 0 0).2 := by
      unfold post_data
      rcases hp : postLoop send 0 0 with ⟨b, n⟩
      cases b <;> rfl
    rw [hpa]
    exact postLoop_attempts send 0 0 (by norm_num)
  · unfold get_data
    dsimp only
    rcases hkv : kvGet hs cache (keyOf name hash) with ⟨ov, c1⟩
    cases ov with
    | some v => simp
    | none =>
      have hb := getLoop_attempts h resp hash [] 0 0 (by norm_num)
      rcases hgl : getLoop h resp hash [] 0 0 with ⟨r, n⟩
      rw [hgl] at hb
      cases r <;> simpa using hb
  · unfold put_blob
    simp only
    have hpost : ∀ p : Nat × List Nat,
        post_data h reducer (fun _ => false) name p.2 false =
          ⟨0, (⟨name, .chunk (h (applyReducer reducer false p.2))⟩,
            applyReducer reducer false p.2), 5⟩ := by
      intro p
      rw [post_data_allFail h reducer name p.2 false]
      rfl
    simp only [hpost]
    rw [enum_map_snd_f (fun c => (⟨0, (⟨name, .chunk (h (applyReducer reducer false c))⟩,
      applyReducer reducer false c), 5⟩ : PostRes)) (chunksList CHUNK_SIZE B)]
    simp only [List.map_map, Function.comp_def]
  · unfold get_blob
    simp only
    unfold get_data
    simp only [kvGet, assocGet]
    rw [getLoop_allNone h 0 [] 0 0 (by norm_num)]

/-- One `get_data` on a fresh (empty volatile) cache against a remote whose
first response is `v` and verifies: the value comes back (through the
reducer unless it is the index), the cache now holds it. -/
theorem get_data_fresh (h : List Nat → Nat) (hs : RKey → Nat)
    (reducer : Option (List Nat → List Nat)) (resp : Nat → Option (List Nat))
    (name : String) (hash : Nat) (v : List Nat)
    (hresp : resp 0 = some v) (hver : hash = 0 ∨ h v = hash) :
    get_data h hs reducer resp (.lru []) name hash =
      ⟨.ok (match reducer with
            | some r => if hash = 0 then v else r v
            | none => v),
       .lru [(keyOf name hash, v)], true, 1⟩ := by
  unfold get_data
  simp only [kvGet, assocGet]
  rw [getLoop_first_ok h resp hash v hresp hver]
  simp [kvPut, eraseKey]

/-- One `get_data` with a nonzero expected hash, a cache miss and a remote
whose constant response never matches the hash on any accumulated buffer:
after the 5 attempts it fails with the integrity error. -/
theorem get_data_mismatch (h : List Nat → Nat) (hs : RKey → Nat)
    (name : String) (hash : Nat) (b : List Nat) (es : List (RKey × List Nat))
    (hz : hash ≠ 0)
    (hmiss : assocGet es (keyOf name hash) = none)
    (hbad : ∀ k, 1 ≤ k → k ≤ 5 → h ((List.replicate k b).flatten) ≠ hash) :
    (get_data h hs none (fun _ => some b) (.lru es) name hash).result =
      .error .HashError := by
  unfold get_data
  dsimp only
  simp only [kvGet, hmiss]
  have hloop := getLoop_constMismatch h b hash hz hbad 0 (by norm_num)
  simp only [List.replicate, List.flatten_nil] at hloop
  rw [hloop]

/-- An index whose length is not a multiple of 8 fails the
`chunks(8) -> try_into -> collect` pipeline with the parse error. -/
theorem collectExcept_chunks8_err : ∀ I : List Nat, I.length % 8 ≠ 0 →
    collectExcept (chunksList 8 I) = .error .IntParseConvertError
  | [], hlen => by simp at hlen
  | a :: l, hlen => by
    rw [chunksList]
    by_cases h7 : 7 ≤ l.length
    · have hlen8 : (a :: l.take 7).length = 8 := by
        simp [List.length_take]
        omega
      have hrest : (l.drop 7).length % 8 ≠ 0 := by
        simp only [List.length_cons] at hlen
        simp only [List.length_drop]
        omega
      have hr := collectExcept_chunks8_err (l.drop 7) hrest
      simp [collectExcept, tryInto8, hlen8, hr, Except.map]
    · have hlen8 : (a :: l.take 7).length ≠ 8 := by
        simp [List.length_take]
        omega
      simp [collectExcept, tryInto8, hlen8, h7]
termination_by I => I.length
decreasing_by simp [List.length_drop]; omega

/-- C3 counterexample: two blobs under different names consisting of the same
single chunk `[7]`; the combined write trace posts the shared chunk body
twice (once per name), not once as the claim states. -/
theorem c3_dedup_counterexample :
    (((put_blob (fun _ => 1) none (fun _ _ => true) (fun _ => true) "a" [7]).posts ++
      (put_blob (fun _ => 1) none (fun _ _ => true) (fun _ => true) "b" [7]).posts).countP
        (fun p => decide (p.2 = [7]))) = 2 ∧ (2 : Nat) ≠ 1 := by
  obtain ⟨ha, _⟩ := put_blob_allOk (fun _ => 1) "a" [7]
  obtain ⟨hb, _⟩ := put_blob_allOk (fun _ => 1) "b" [7]
  have hch : chunksList CHUNK_SIZE [7] = [[7]] := by simp [chunksList]
  rw [hch] at ha hb
  rw [ha, hb]
  decide

/-- C3 amended: the write path never consults the cache (`post_data` and
`put_blob` contain no cache access at all); remote keys are name-scoped, so
a chunk shared by two blobs is transmitted and stored once per blob name,
under two distinct keys.  First-writer-wins dedup at the cache happens only
when the read path later inserts fetched objects. -/
theorem c3_dedup_amended (h : List Nat → Nat) (name1 name2 : String) (B : List Nat)
    (c : List Nat) (hc : c ∈ chunksList CHUNK_SIZE B) (hne : name1 ≠ name2) :
    ((⟨name1, .chunk (h c)⟩ : RKey), c) ∈
      (put_blob h none (fun _ _ => true) (fun _ => true) name1 B).posts ∧
    ((⟨name2, .chunk (h c)⟩ : RKey), c) ∈
      (put_blob h none (fun _ _ => true) (fun _ => true) name2 B).posts ∧
    ((⟨name1, .chunk (h c)⟩ : RKey) ≠ ⟨name2, .chunk (h c)⟩) := by
  obtain ⟨h1, _⟩ := put_blob_allOk h name1 B
  obtain ⟨h2, _⟩ := put_blob_allOk h name2 B
  refine ⟨?_, ?_, ?_⟩
  · rw [h1]
    exact List.mem_append_left _ (List.mem_map.mpr ⟨c, hc, rfl⟩)
  · rw [h2]
    exact List.mem_append_left _ (List.mem_map.mpr ⟨c, hc, rfl⟩)
  · intro hq
    exact hne (congrArg RKey.name hq)

/-- Witness for the amended C3 at two concrete one-chunk blobs. -/
theorem c3_dedup_amended_witness :
    ((⟨"a", .chunk 1⟩ : RKey), [7]) ∈
      (put_blob (fun _ => 1) none (fun _ _ => true) (fun _ => true) "a" [7]).posts ∧
    ((⟨"b", .chunk 1⟩ : RKey), [7]) ∈
      (put_blob (fun _ => 1) none (fun _ _ => true) (fun _ => true) "b" [7]).posts ∧
    ((⟨"a", .chunk 1⟩ : RKey) ≠ ⟨"b", .chunk 1⟩) :=
  c3_dedup_amended (fun _ => 1) "a" "b" [7] [7] (by simp [chunksList]) (by decide)

/-- C4 counterexample: on the volatile LRU variant, a second `put` to the
same key returns the new value and overwrites the stored one — last write
wins there, contradicting the claim for that variant. -/
theorem c4_first_writer_counterexample :
    (kvPut (fun _ => 0) (kvPut (fun _ => 0) (.lru []) ⟨"k", .index⟩ [1]).2
      ⟨"k", .index⟩ [2]).1 = [2] ∧
    (kvPut (fun _ => 0) (kvPut (fun _ => 0) (.lru []) ⟨"k", .index⟩ [1]).2
      ⟨"k", .index⟩ [2]).2 = .lru [(⟨"k", .index⟩, [2])] ∧
    ([2] : List Nat) ≠ [1] := by
  refine ⟨rfl, ?_, by decide⟩
  simp [kvPut, eraseKey]

/-- C4 amended: first-writer-wins holds for the persistent sqlite variant
(put re-checks existence and returns the stored value), while the volatile
LRU variant unconditionally stores and returns the new value. -/
theorem c4_first_writer_amended (hs : RKey → Nat) (front table : List (Nat × List Nat))
    (k : RKey) (v1 v2 : List Nat)
    (hmiss : (kvGet hs (.sqlite front table) k).1 = none) :
    (kvPut hs (.sqlite front table) k v1).1 = v1 ∧
    (kvPut hs (kvPut hs (.sqlite front table) k v1).2 k v2).1 = v1 ∧
    (kvGet hs (kvPut hs (kvPut hs (.sqlite front table) k v1).2 k v2).2 k).1 = some v1 ∧
    (∀ es v, (kvPut hs (.lru es) k v).1 = v) := by
  have hfront : assocGet front (hs k) = none := by
    unfold kvGet at hmiss
    dsimp only at hmiss
    cases hf : assocGet front (hs k) with
    | some v => rw [hf] at hmiss; simp at hmiss
    | none => rfl
  have htable : assocGet table (hs k) = none := by
    unfold kvGet at hmiss
    dsimp only at hmiss
    rw [hfront] at hmiss
    simpa using hmiss
  have hget0 : kvGet hs (.sqlite front table) k = (none, .sqlite front table) := by
    unfold kvGet
    dsimp only
    rw [hfront, htable]
  have hput1 : kvPut hs (.sqlite front table) k v1 =
      (v1, .sqlite (((hs k, v1) :: eraseKey front (hs k)).take 128)
        (table ++ [(hs k, v1)])) := by
    unfold kvPut
    dsimp only
    rw [hget0]
  have htk : ((hs k, v1) :: eraseKey front (hs k)).take 128 =
      (hs k, v1) :: (eraseKey front (hs k)).take 127 := by
    rw [show (128 : Nat) = 127 + 1 from rfl, List.take_succ_cons]
  have hfget : assocGet (((hs k, v1) :: eraseKey front (hs k)).take 128) (hs k) =
      some v1 := by
    rw [htk]
    simp [assocGet]
  have hget1 : kvGet hs (.sqlite (((hs k, v1) :: eraseKey front (hs k)).take 128)
      (table ++ [(hs k, v1)])) k =
      (some v1, .sqlite
        ((hs k, v1) :: eraseKey (((hs k, v1) :: eraseKey front (hs k)).take 128) (hs k))
        (table ++ [(hs k, v1)])) := by
    unfold kvGet
    dsimp only
    rw [hfget]
  have hput2 : kvPut hs (kvPut hs (.sqlite front table) k v1).2 k v2 =
      (v1, .sqlite
        ((hs k, v1) :: eraseKey (((hs k, v1) :: eraseKey front (hs k)).take 128) (hs k))
        (table ++ [(hs k, v1)])) := by
    rw [hput1]
    unfold kvPut
    dsimp only
    rw [hget1]
  refine ⟨by rw [hput1], by rw [hput2], ?_, fun es v => rfl⟩
  rw [hput2]
  unfold kvGet
  dsimp only
  simp [assocGet]

/-- Witness for the amended C4 on a fresh sqlite cache. -/
theorem c4_first_writer_amended_witness :
    (kvPut (fun _ => 0) (.sqlite [] []) ⟨"k", .index⟩ [1]).1 = [1] ∧
    (kvPut (fun _ => 0) (kvPut (fun _ => 0) (.sqlite [] []) ⟨"k", .index⟩ [1]).2
      ⟨"k", .index⟩ [2]).1 = [1] ∧
    (kvGet (fun _ => 0) (kvPut (fun _ => 0) (kvPut (fun _ => 0) (.sqlite [] [])
      ⟨"k", .index⟩ [1]).2 ⟨"k", .index⟩ [2]).2 ⟨"k", .index⟩).1 = some [1] ∧
    (∀ es v, (kvPut (fun _ => 0) (.lru es) (⟨"k", .index⟩ : RKey) v).1 = v) :=
  c4_first_writer_amended (fun _ => 0) [] [] ⟨"k", .index⟩ [1] [2] rfl

/-- Witness for C1 at the concrete blob `[]` and a concrete hash function. -/
theorem c1_put_get_round_trip_witness :
    (get_blob (fun _ => 1) (fun _ => 0) none
        (fun k _ => storeOf
          (put_blob (fun _ => 1) none (fun _ _ => true) (fun _ => true) "blob" []).posts k)
        (.lru []) "blob").result = .ok [] :=
  c1_put_get_round_trip (fun _ => 1) (fun _ => 0) "blob" []
    (fun _ => by norm_num)
    (by simp [chunksList])
    (by simp [chunksList])

/-- C5: when every chunk post succeeds, the index `put_blob` produces is the
concatenation of each chunk's content hash (hash of the post-transform
bytes) in 8-byte little-endian encoding, in original chunk order (the
ordered embedding of the order-preserving rayon collect), and its length is
a multiple of 8. -/
theorem c5_index_structure (h : List Nat → Nat) (reducer : Option (List Nat → List Nat))
    (name : String) (B : List Nat) (isend : Nat → Bool)
    (sends : Nat → Nat → Bool) (hok : ∀ i j, sends i j = true) :
    (put_blob h reducer sends isend name B).indexBody =
      ((chunksList CHUNK_SIZE B).map
        (fun c => toLeBytes (h (applyReducer reducer false c)))).flatten ∧
    (put_blob h reducer sends isend name B).indexBody.length % 8 = 0 := by
  have hbody : (put_blob h reducer sends isend name B).indexBody =
      ((chunksList CHUNK_SIZE B).map
        (fun c => toLeBytes (h (applyReducer reducer false c)))).flatten := by
    unfold put_blob
    simp only
    have hpost : ∀ p : Nat × List Nat,
        post_data h reducer (sends p.1) name p.2 false =
          ⟨h (applyReducer reducer false p.2),
           (⟨name, .chunk (h (applyReducer reducer false p.2))⟩,
            applyReducer reducer false p.2), 1⟩ := by
      intro p
      rw [post_data_first_ok h reducer (sends p.1) name p.2 false (hok p.1 0)]
      rfl
    simp only [hpost]
    rw [enum_map_snd_f (fun c => (⟨h (applyReducer reducer false c),
      (⟨name, .chunk (h (applyReducer reducer false c))⟩,
        applyReducer reducer false c), 1⟩ : PostRes)) (chunksList CHUNK_SIZE B)]
    simp only [List.map_map, Function.comp_def]
  refine ⟨hbody, ?_⟩
  rw [hbody]
  apply chunksList_length_flatten_mod 8
  intro c hc
  obtain ⟨c', _, rfl⟩ := List.mem_map.mp hc
  exact toLeBytes_length _

/-- Witness for C5 at a concrete one-chunk blob. -/
theorem c5_index_structure_witness :
    (put_blob (fun _ => 1) none (fun _ _ => true) (fun _ => true) "n" [5]).indexBody =
      ((chunksList CHUNK_SIZE [5]).map
        (fun c => toLeBytes ((fun _ => 1) (applyReducer none false c)))).flatten ∧
    (put_blob (fun _ => 1) none (fun _ _ => true) (fun _ => true) "n" [5]).indexBody.length
      % 8 = 0 :=
  c5_index_structure (fun _ => 1) none "n" [5] (fun _ => true) (fun _ _ => true)
    (fun _ _ => rfl)

/-- C6 counterexample: with a transform installed, a chunk served from the
cache is returned exactly as stored, with no function applied to it — the
read path applies the reducer only on the remote-fetch branch, so the claim
that the inverse transform is applied "whether the chunk was served from the
cache or fetched from the remote" fails.  Here the cache holds index
`toLeBytes 5` and chunk `[7]` for a client whose reducer prepends a `0`; the
result is `[7]`, not the transformed `[0, 7]`. -/
theorem c6_transform_counterexample :
    (get_blob (fun _ => 1) (fun _ => 0) (some (fun b => 0 :: b)) (fun _ _ => none)
        (.lru [(⟨"n", .index⟩, toLeBytes 5), (⟨"n", .chunk 5⟩, [7])]) "n").result =
      .ok [7] ∧
    ((fun b => (0 : Nat) :: b) [7]) ≠ [7] := by
  constructor
  · have hch : chunksList 8 ([5, 0, 0, 0, 0, 0, 0, 0] : List Nat) =
        [[5, 0, 0, 0, 0, 0, 0, 0]] := by
      simp [chunksList]
    simp [get_blob, get_data, kvGet, assocGet, eraseKey, keyOf, hch, collectExcept,
      tryInto8, toLeBytes, fromLeBytes, getChunksLoop, Except.map]
  · simp

/-- C6 amended: the transform is applied on the write path to every chunk
payload (the hash is computed over the post-transform bytes) and never to
the index; on the read path the reducer is applied to non-index chunks
fetched from the remote, while a chunk served from the cache is returned as
stored, without the transform, and the index is never transformed on either
branch. -/
theorem c6_transform_amended (h : List Nat → Nat) (hs : RKey → Nat)
    (r : List Nat → List Nat) (name : String) (data b : List Nat)
    (es : List (RKey × List Nat)) (hash : Nat) (hnz : hash ≠ 0)
    (hmiss : assocGet es (keyOf name hash) = none)
    (hver : h b = hash) :
    (post_data h (some r) (fun _ => true) name data false).req =
      ((⟨name, .chunk (h (r data))⟩ : RKey), r data) ∧
    (post_data h (some r) (fun _ => true) name data true).req =
      ((⟨name, .index⟩ : RKey), data) ∧
    (get_data h hs (some r) (fun _ => some b) (.lru es) name hash).result = .ok (r b) ∧
    (∀ b', (get_data h hs (some r) (fun _ => some b') (.lru []) name 0).result = .ok b') := by
  refine ⟨?_, ?_, ?_, ?_⟩
  · rw [post_data_first_ok h (some r) (fun _ => true) name data false rfl]
    rfl
  · rw [post_data_first_ok h (some r) (fun _ => true) name data true rfl]
    rfl
  · unfold get_data
    dsimp only
    simp only [kvGet, hmiss]
    rw [getLoop_first_ok h (fun _ => some b) hash b rfl (Or.inr (by simpa using hver))]
    simp [kvPut, hnz]
  · intro b'
    rw [get_data_fresh h hs (some r) (fun _ => some b') name 0 b' rfl (Or.inl rfl)]
    rfl

/-- Witness for the amended C6 at concrete inputs. -/
theorem c6_transform_amended_witness :
    (post_data (fun _ => 1) (some (fun b => 0 :: b)) (fun _ => true) "n" [9] false).req =
      ((⟨"n", .chunk 1⟩ : RKey), [0, 9]) ∧
    (post_data (fun _ => 1) (some (fun b => 0 :: b)) (fun _ => true) "n" [9] true).req =
      ((⟨"n", .index⟩ : RKey), [9]) ∧
    (get_data (fun _ => 1) (fun _ => 0) (some (fun b => 0 :: b)) (fun _ => some [9])
      (.lru []) "n" 1).result = .ok [0, 9] ∧
    (∀ b', (get_data (fun _ => 1) (fun _ => 0) (some (fun b => 0 :: b))
      (fun _ => some b') (.lru []) "n" 0).result = .ok b') :=
  c6_transform_amended (fun _ => 1) (fun _ => 0) (fun b => 0 :: b) "n" [9] [9] []
    1 (by norm_num) rfl rfl

/-- C7: a fetched index whose byte length is not a multiple of 8 makes
`get_blob` fail with the parse error, and the only `get_data` invocation
made is the index one — no chunk fetch is attempted. -/
theorem c7_malformed_index (h : List Nat → Nat) (hs : RKey → Nat)
    (reducer : Option (List Nat → List Nat)) (remote : RKey → Nat → Option (List Nat))
    (cache : KvCacheSt) (name : String) (I : List Nat)
    (hfetch : (get_data h hs reducer (remote (keyOf name 0)) cache name 0).result = .ok I)
    (hlen : I.length % 8 ≠ 0) :
    (get_blob h hs reducer remote cache name).result = .error .IntParseConvertError ∧
    (get_blob h hs reducer remote cache name).calls =
      [(keyOf name 0,
        (get_data h hs reducer (remote (keyOf name 0)) cache name 0).fromRemote)] := by
  unfold get_blob
  dsimp only
  rw [hfetch]
  dsimp only
  rw [collectExcept_chunks8_err I hlen]
  exact ⟨rfl, rfl⟩

/-- Witness for C7: a remote serving the 3-byte index `[1, 2, 3]`. -/
theorem c7_malformed_index_witness :
    (get_blob (fun _ => 1) (fun _ => 0) none (fun _ _ => some [1, 2, 3])
      (.lru []) "n").result = .error .IntParseConvertError ∧
    (get_blob (fun _ => 1) (fun _ => 0) none (fun _ _ => some [1, 2, 3])
      (.lru []) "n").calls =
      [(keyOf "n" 0,
        (get_data (fun _ => 1) (fun _ => 0) none
          ((fun (_ : RKey) (_ : Nat) => some [1, 2, 3]) (keyOf "n" 0))
          (.lru []) "n" 0).fromRemote)] :=
  c7_malformed_index (fun _ => 1) (fun _ => 0) none (fun _ _ => some [1, 2, 3])
    (.lru []) "n" [1, 2, 3]
    (by rw [get_data_fresh (fun _ => 1) (fun _ => 0) none _ "n" 0 [1, 2, 3] rfl
      (Or.inl rfl)])
    (by norm_num)

/-- C8: on the read path a nonzero expected hash is verified against the
fetched bytes — a remote whose responses never match the hash makes
`get_blob` fail with the integrity error, returning no partial result (here
the stored index references one chunk whose remote content `b` is corrupt on
every attempt and accumulation) — while the index fetch (sentinel hash `0`)
skips the verification entirely and accepts any body. -/
theorem c8_integrity (h : List Nat → Nat) (hs : RKey → Nat) (name : String)
    (hash : Nat) (b : List Nat)
    (hz : hash ≠ 0) (hrange : hash < 2 ^ 64)
    (hbad : ∀ k, 1 ≤ k → k ≤ 5 → h ((List.replicate k b).flatten) ≠ hash) :
    (get_blob h hs none
        (fun k _ => if k = keyOf name hash then some b else some (toLeBytes hash))
        (.lru []) name).result = .error .HashError ∧
    (∀ b' name', (get_data h hs none (fun _ => some b') (.lru []) name' 0).result
      = .ok b') := by
  constructor
  · have hne : keyOf name 0 ≠ keyOf name hash := by
      simp [keyOf, hz]
    unfold get_blob
    dsimp only
    simp only [if_neg hne]
    rw [get_data_fresh h hs none (fun _ => some (toLeBytes hash)) name 0
      (toLeBytes hash) rfl (Or.inl rfl)]
    dsimp only
    have hch : chunksList 8 (toLeBytes hash) = [toLeBytes hash] := by
      have hu := chunksList_uniform 8 (by norm_num) [toLeBytes hash]
        (by intro c hc; simp at hc; rw [hc]; exact toLeBytes_length hash)
      simpa using hu
    rw [hch]
    rw [collectExcept_ok [toLeBytes hash]
      (by intro c hc; simp at hc; rw [hc]; exact toLeBytes_length hash)]
    dsimp only
    have hmap : [toLeBytes hash].map fromLeBytes = [hash] := by
      simp [fromLeBytes_toLeBytes hash hrange]
    rw [hmap]
    have hmiss : assocGet [(keyOf name 0, toLeBytes hash)] (keyOf name hash) = none := by
      simp [assocGet, hne]
    have hcm := get_data_mismatch h hs name hash b [(keyOf name 0, toLeBytes hash)]
      hz hmiss hbad
    simp only [getChunksLoop]
    simp only [eq_self_iff_true, if_true, if_pos]
    rw [hcm]
    rfl
  · intro b' name'
    rw [get_data_fresh h hs none (fun _ => some b') name' 0 b' rfl (Or.inl rfl)]

/-- Witness for C8: hash `1`, a remote always answering the empty body for
the chunk (which hashes to `0 ≠ 1` under the constant-zero hash model). -/
theorem c8_integrity_witness :
    (get_blob (fun _ => 0) (fun _ => 0) none
        (fun k _ => if k = keyOf "n" 1 then some [] else some (toLeBytes 1))
        (.lru []) "n").result = .error .HashError ∧
    (∀ b' name', (get_data (fun _ => 0) (fun _ => 0) none (fun _ => some b')
      (.lru []) name' 0).result = .ok b') :=
  c8_integrity (fun _ => 0) (fun _ => 0) "n" 1 []
    (by norm_num) (by norm_num) (fun k h1 h5 => by norm_num)

/-- C9 (code bug): the fallback path of `get_hash` (src/utils.rs line 24)
assigns `vec![0u8, 8]` — the two-element vector `[0, 8]`, a comma where the
intended `vec![0u8; 8]` has a semicolon — so when the XOF read fails the
subsequent `try_into::<[u8; 8]>().expect(..)` panics (modelled `none`)
instead of producing the all-zero 8-byte i64 `0` the spec describes; the
fallback buffer is not the all-zero 8-byte buffer. -/
theorem c9_get_hash_fallback_panics :
    get_hash_finish false [0, 0, 0, 0, 0, 0, 0, 0] = none ∧
    get_hash_buf false [0, 0, 0, 0, 0, 0, 0, 0] ≠ List.replicate 8 0 ∧
    get_hash_finish true [0, 0, 0, 0, 0, 0, 0, 0] = some 0 := by
  refine ⟨rfl, by decide, rfl⟩

/-- C10: `get_data(name, 0)` addresses the key with suffix "index" and skips
hash verification; an all-zero 8-byte entry in a stored index therefore
makes `get_blob` fetch the index object itself as that chunk's content —
here the remote holds only the index (an 8-byte zero placeholder), the
result succeeds with the index bytes as the blob, the first call hits the
remote and the second is served from the cache under the same index key, and
no error is reported for the missing chunk. -/
theorem c10_zero_entry_fetches_index (h : List Nat → Nat) (hs : RKey → Nat)
    (name : String) :
    keyOf name 0 = ⟨name, .index⟩ ∧
    (get_blob h hs none
        (fun k _ => if k = keyOf name 0 then some (List.replicate 8 0) else none)
        (.lru []) name).result = .ok (List.replicate 8 0) ∧
    (get_blob h hs none
        (fun k _ => if k = keyOf name 0 then some (List.replicate 8 0) else none)
        (.lru []) name).calls = [(keyOf name 0, true), (keyOf name 0, false)] := by
  have hrep : (List.replicate 8 0 : List Nat) = [0, 0, 0, 0, 0, 0, 0, 0] := rfl
  have hch : chunksList 8 ([0, 0, 0, 0, 0, 0, 0, 0] : List Nat) =
      [[0, 0, 0, 0, 0, 0, 0, 0]] := by
    simp [chunksList]
  refine ⟨by simp [keyOf], ?_, ?_⟩ <;>
    simp [hrep, get_blob, get_data, kvGet, assocGet, eraseKey, kvPut, getChunksLoop,
      hch, collectExcept, tryInto8, fromLeBytes, getLoop, Except.map]

end CfKvFs
